import Mathlib

/-!
Shallow embedding of the difference-detection engine of the
`prompt-to-puzzle` repository (`src/services/imageAnalysisService.ts`),
together with theorems settling the frozen claims C1..C10.

Modelling conventions:
* JavaScript numbers are modelled as `ℚ` (all the arithmetic the engine
  performs on them is exact decimal/field arithmetic, so `ℚ` is faithful
  wherever no square root is taken).
* `Math.sqrt s < t` and `Math.sqrt s > t` comparisons are embedded as the
  exact-real equivalents `0 < t ∧ s < t * t` and `t < 0 ∨ t * t < s`;
  the lemmas `sqrtLtQ_correct` / `sqrtGtQ_correct` below prove these
  equivalent to the corresponding statements about `Real.sqrt` whenever
  `0 ≤ s` (which always holds at the call sites, where `s` is a sum of
  squares).
* An `ImageData` pixel buffer is a structure holding `width`, `height`
  and a byte accessor `data : ℕ → ℚ` (index into the flat RGBA array).
* The canvas blur (a platform API, not repository code) is abstracted
  away exactly as spec §9 prescribes: the two `Image` inputs of
  `findDifferences` stand for the already-smoothed RGBA buffers the code
  reads back from the canvas.
* The imperative loops (flood fill work stack, iterative merge passes)
  are embedded as structurally recursive functions on an explicit fuel
  argument; in each case the fuel supplied by the wrapper is provably
  sufficient (flood fill consumes at most `9 * width * height + 1` stack
  pops, one merge pass recurses at most `length` times, and the outer
  merge loop runs at most `length` passes), so the embedding computes
  exactly what the JavaScript loops compute.
-/

namespace PuzzleEngine

/-- Exact-rational embedding of the JavaScript comparison
`Math.sqrt s > t` (used for the color-distance threshold test). -/
def sqrtGtQ (s t : ℚ) : Bool :=
  decide (t < 0 ∨ t * t < s)

/-- Exact-rational embedding of the JavaScript comparison
`Math.sqrt s < t` (used for circle overlap and region-gap tests). -/
def sqrtLtQ (s t : ℚ) : Bool :=
  decide (0 < t ∧ s < t * t)

/-- A decoded RGBA pixel buffer (`ImageData`): `data i` is the byte at
index `i` of the flat `width * height * 4` array. -/
structure Image where
  width : ℕ
  height : ℕ
  data : ℕ → ℚ

/-- The `AnalysisParams` record of `src/types.ts`. -/
structure AnalysisParams where
  blurRadius : ℚ
  colorThreshold : ℚ
  minRegionSize : ℚ
  mergeDistance : ℚ
  minDensity : ℚ
  minAspectRatio : ℚ
  maxAspectRatio : ℚ
  maxRegionSizePercent : ℚ
  circleRadiusMultiplier : ℚ
deriving DecidableEq

/-- The `Region` record of `imageAnalysisService.ts`: inclusive pixel
bounding box plus pixel count. -/
structure Region where
  minX : ℚ
  maxX : ℚ
  minY : ℚ
  maxY : ℚ
  size : ℚ
deriving DecidableEq

/-- A bounding circle in pixel space (the local `Circle` type of
`findDifferences`). -/
structure Circle where
  x : ℚ
  y : ℚ
  radius : ℚ
deriving DecidableEq

/-- The `Difference` record of `src/types.ts` (the engine always emits
`description = ""` and leaves `foundTime` unset, so that field is
omitted). -/
structure Difference where
  id : ℕ
  x : ℚ
  y : ℚ
  radius : ℚ
  description : String
deriving DecidableEq

/-- The typed failure kinds of the engine (spec §7); the two dimension
checks at the top of `findDifferences`. -/
inductive AnalysisError where
  | zeroDimension : AnalysisError
  | dimensionMismatch : AnalysisError
deriving DecidableEq

/-! ## ComplexityScorer (`calculateImageComplexity`, lines 11-33) -/

/-- Grayscale brightness of the pixel whose R byte sits at flat index
`i`: `(data[i] + data[i+1] + data[i+2]) / 3`. -/
def brightnessAt (img : Image) (i : ℕ) : ℚ :=
  (img.data i + img.data (i + 1) + img.data (i + 2)) / 3

/-- The brightness-gradient edge test of the complexity loop body: the
pixel at `(x, y)` counts as an edge pixel iff its brightness differs by
more than 25 from the pixel to its right or the pixel below. -/
def isEdgeAt (img : Image) (x y : ℕ) : Bool :=
  let i := (y * img.width + x) * 4
  let currentBrightness := brightnessAt img i
  let rightBrightness := brightnessAt img (i + 4)
  let bottomBrightness := brightnessAt img (i + img.width * 4)
  decide (25 < |currentBrightness - rightBrightness| ∨
          25 < |currentBrightness - bottomBrightness|)

/-- `calculateImageComplexity`: the nested
`for (y = 1; y < height - 1; y++) for (x = 1; x < width - 1; x++)`
loops incrementing `edgeCount`, then `edgeCount / (width * height)`.
`List.range' 1 (n - 2)` is exactly the index sequence `1, …, n - 2`
that `for (v = 1; v < n - 1; v++)` visits (empty when `n ≤ 2`). -/
def calculateImageComplexity (img : Image) : ℚ :=
  let edgeCount : ℕ :=
    (List.range' 1 (img.height - 2)).foldl (fun acc y =>
      (List.range' 1 (img.width - 2)).foldl (fun acc2 x =>
        if isEdgeAt img x y then acc2 + 1 else acc2) acc) 0
  (edgeCount : ℚ) / (img.width * img.height)

/-! ## ParameterSelector (`getAdaptiveParameters`, lines 40-62) -/

/-- `getAdaptiveParameters`: the three complexity presets bucketed at
0.06 and 0.15. -/
def getAdaptiveParameters (complexity : ℚ) : AnalysisParams :=
  if complexity < 6 / 100 then
    ⟨1, 40, 150, 25, 20 / 100, 1 / 10, 10, 40 / 100, 13 / 10⟩
  else if complexity < 15 / 100 then
    ⟨2, 55, 250, 35, 25 / 100, 1 / 10, 10, 35 / 100, 12 / 10⟩
  else
    ⟨2, 60, 300, 45, 28 / 100, 1 / 10, 10, 30 / 100, 115 / 100⟩

/-! ## DiffMapBuilder (`findDifferences`, lines 177-193) -/

/-- The per-pixel threshold test of the diff-map loop: pixel `j` (flat
RGBA index `i = 4 * j`) is marked different iff the Euclidean RGB
distance between the two (smoothed) buffers exceeds `colorThreshold`. -/
def pixelDifferent (o m : Image) (t : ℚ) (j : ℕ) : Bool :=
  let i := 4 * j
  let dr := o.data i - m.data i
  let dg := o.data (i + 1) - m.data (i + 1)
  let db := o.data (i + 2) - m.data (i + 2)
  sqrtGtQ (dr * dr + dg * dg + db * db) t

/-- `differencePixelCount`: how many of the `width * height` pixels the
diff-map loop marks as different. -/
def differencePixelCount (o m : Image) (t : ℚ) : ℕ :=
  (List.range (o.width * o.height)).countP (pixelDifferent o m t)

/-! ## RegionLabeler (`findConnectedComponents` / `floodFill`,
lines 302-361) -/

/-- One step of the flood-fill work-stack loop (`while (stack.length > 0)`
in `floodFill`).  The stack holds possibly out-of-range `ℤ` coordinates
exactly as the JavaScript array does; bounds, visited and diff-map checks
are short-circuited in the source order.  The eight neighbour pushes are
listed so that the head of the list is the last-pushed (next-popped)
element.  The fuel argument only makes the recursion structural: each
step either pops one entry without pushing, or pushes eight entries while
permanently marking an unvisited in-range cell visited, so the measure
`9 * |unvisited in-range cells| + |stack|` strictly decreases and the
initial fuel `9 * width * height + 1` is never exhausted. -/
def floodFillLoop (dm : ℤ → ℤ → Bool) (width height : ℕ) :
    ℕ → List (ℤ × ℤ) → Finset (ℤ × ℤ) → Region → Region × Finset (ℤ × ℤ)
  | 0, _, visited, region => (region, visited)
  | _ + 1, [], visited, region => (region, visited)
  | fuel + 1, (x, y) :: stack, visited, region =>
    if x < 0 ∨ (width : ℤ) ≤ x ∨ y < 0 ∨ (height : ℤ) ≤ y ∨
        (x, y) ∈ visited ∨ dm x y = false then
      floodFillLoop dm width height fuel stack visited region
    else
      floodFillLoop dm width height fuel
        ((x - 1, y + 1) :: (x + 1, y - 1) :: (x - 1, y - 1) :: (x + 1, y + 1) ::
          (x, y - 1) :: (x, y + 1) :: (x - 1, y) :: (x + 1, y) :: stack)
        (insert (x, y) visited)
        ⟨min region.minX (x : ℚ), max region.maxX (x : ℚ),
         min region.minY (y : ℚ), max region.maxY (y : ℚ), region.size + 1⟩

/-- `floodFill`: grow one region from the seed `(startX, startY)`,
threading the shared `visited` set. -/
def floodFill (dm : ℤ → ℤ → Bool) (width height : ℕ) (startX startY : ℕ)
    (visited : Finset (ℤ × ℤ)) : Region × Finset (ℤ × ℤ) :=
  floodFillLoop dm width height (9 * (width * height) + 1)
    [((startX : ℤ), (startY : ℤ))] visited
    ⟨(startX : ℚ), (startX : ℚ), (startY : ℚ), (startY : ℚ), 0⟩

/-- The body of the raster scan of `findConnectedComponents`: on an
unvisited set diff-map cell, flood fill and append the region found. -/
def fccStep (dm : ℤ → ℤ → Bool) (width height : ℕ)
    (st : List Region × Finset (ℤ × ℤ)) (c : ℕ × ℕ) :
    List Region × Finset (ℤ × ℤ) :=
  if dm (c.1 : ℤ) (c.2 : ℤ) = true ∧ ((c.1 : ℤ), (c.2 : ℤ)) ∉ st.2 then
    let rv := floodFill dm width height c.1 c.2 st.2
    (st.1 ++ [rv.1], rv.2)
  else st

/-- The raster-scan order of `findConnectedComponents`: `y` outer, `x`
inner. -/
def rasterCells (width height : ℕ) : List (ℕ × ℕ) :=
  (List.range height).flatMap (fun y => (List.range width).map (fun x => (x, y)))

/-- `findConnectedComponents`: scan the mask in raster order, flood
filling each unvisited set cell; regions are collected in discovery
order. -/
def findConnectedComponents (dm : ℤ → ℤ → Bool) (width height : ℕ) :
    List Region :=
  ((rasterCells width height).foldl (fccStep dm width height) ([], ∅)).1

/-! ## RegionFilter (`findDifferences` step 4, lines 199-217) -/

/-- First region filter: `region.size >= params.minRegionSize`. -/
def sizeKeep (p : AnalysisParams) (r : Region) : Bool :=
  decide (p.minRegionSize ≤ r.size)

/-- Second region filter (aspect ratio), with the zero-extent guard and
the strict bounds exactly as in the source. -/
def aspectKeep (p : AnalysisParams) (r : Region) : Bool :=
  let regionWidth := r.maxX - r.minX + 1
  let regionHeight := r.maxY - r.minY + 1
  if regionHeight = 0 ∨ regionWidth = 0 then false
  else
    let aspectRatio := regionWidth / regionHeight
    decide (p.minAspectRatio < aspectRatio ∧ aspectRatio < p.maxAspectRatio)

/-- Third region filter (density, with the very-large-region waiver). -/
def densityKeep (p : AnalysisParams) (r : Region) : Bool :=
  let boundingArea := (r.maxX - r.minX + 1) * (r.maxY - r.minY + 1)
  if boundingArea = 0 then false
  else
    let isVeryLarge := decide (p.minRegionSize * 10 < r.size)
    let density := r.size / boundingArea
    isVeryLarge || decide (p.minDensity < density)

/-- The three chained `.filter` calls of step 4. -/
def regionFilter (p : AnalysisParams) (regions : List Region) : List Region :=
  ((regions.filter (sizeKeep p)).filter (aspectKeep p)).filter (densityKeep p)

/-! ## RegionMerger (`mergeNearbyRegions` and helpers, lines 368-411) -/

/-- `mergeTwoRegions`: bounding-box union with summed size. -/
def mergeTwoRegions (r1 r2 : Region) : Region :=
  ⟨min r1.minX r2.minX, max r1.maxX r2.maxX,
   min r1.minY r2.minY, max r1.maxY r2.maxY, r1.size + r2.size⟩

/-- `shouldMerge`: the bounding boxes are closer than `maxDistance`,
where the gap is `sqrt(dx² + dy²)` with `dx`/`dy` the (clamped to 0)
axis gaps. -/
def shouldMerge (region1 region2 : Region) (maxDistance : ℚ) : Bool :=
  let dx := max 0 (max region1.minX region2.minX - min region1.maxX region2.maxX)
  let dy := max 0 (max region1.minY region2.minY - min region1.maxY region2.maxY)
  sqrtLtQ (dx * dx + dy * dy) maxDistance

/-- The inner `for (j = i + 1; ...)` loop of `mergeNearbyRegions` for a
fixed `i`: scan the elements after position `i` left to right, absorbing
into the accumulator every region that `shouldMerge` with it (the splice
plus `j--` of the source), keeping the others.  Returns the final value
of `regions[i]`, the surviving later elements, and whether any merge
happened. -/
def mergeInto (d : ℚ) (acc : Region) : List Region → Region × List Region × Bool
  | [] => (acc, [], false)
  | r :: rs =>
    if shouldMerge acc r d then
      let res := mergeInto d (mergeTwoRegions acc r) rs
      (res.1, res.2.1, true)
    else
      let res := mergeInto d acc rs
      (res.1, r :: res.2.1, res.2.2)

/-- One full pass of the outer `for (i = 0; ...)` loop: process position
`i`, then continue with the surviving later elements.  The recursion is
on a fuel bounded below by the list length (the recursive call is on
`mergeInto`'s output, which is no longer than the tail); with that much
fuel the zero-fuel fallback is unreachable. -/
def mergePassFuel (d : ℚ) : ℕ → List Region → List Region × Bool
  | _, [] => ([], false)
  | 0, r :: rs => (r :: rs, false)
  | fuel + 1, r :: rs =>
    let inner := mergeInto d r rs
    let rest := mergePassFuel d fuel inner.2.1
    (inner.1 :: rest.1, inner.2.2 || rest.2)

/-- One full pairwise pass over the region list. -/
def mergePass (d : ℚ) (rs : List Region) : List Region × Bool :=
  mergePassFuel d rs.length rs

/-- The outer `while (wasMergedInPass)` loop: run passes until one
completes with zero merges.  Each pass that merges strictly shrinks the
list, so `length` passes of fuel always suffice. -/
def mergeLoopFuel (d : ℚ) : ℕ → List Region → List Region
  | 0, rs => rs
  | fuel + 1, rs =>
    let pass := mergePass d rs
    if pass.2 then mergeLoopFuel d fuel pass.1 else pass.1

/-- `mergeNearbyRegions`, including the `length < 2` early return. -/
def mergeNearbyRegions (regions : List Region) (mergeDistance : ℚ) :
    List Region :=
  if regions.length < 2 then regions
  else mergeLoopFuel mergeDistance regions.length regions

/-! ## CircleResolver (`findDifferences` steps 6-7, lines 222-280) -/

/-- Step 6: drop regions whose bounding-box extent (note: `maxX - minX`,
without the `+ 1`) is too large a fraction of the shorter image side. -/
def filterLargeRegions (p : AnalysisParams) (width height : ℕ)
    (regions : List Region) : List Region :=
  regions.filter fun r =>
    let imageMinDimension : ℚ := ((min width height : ℕ) : ℚ)
    decide ((r.maxX - r.minX) / imageMinDimension < p.maxRegionSizePercent ∧
            (r.maxY - r.minY) / imageMinDimension < p.maxRegionSizePercent)

/-- The region-to-circle conversion of step 7: bounding-box midpoint
center, padded half-extent radius. -/
def regionToCircle (p : AnalysisParams) (region : Region) : Circle :=
  let centerX := (region.minX + region.maxX) / 2
  let centerY := (region.minY + region.maxY) / 2
  let radiusX := (region.maxX - region.minX) / 2
  let radiusY := (region.maxY - region.minY) / 2
  ⟨centerX, centerY, max radiusX radiusY * p.circleRadiusMultiplier⟩

/-- `doCirclesOverlap`: center distance below the sum of the radii. -/
def doCirclesOverlap (circle1 circle2 : Circle) : Bool :=
  let dx := circle1.x - circle2.x
  let dy := circle1.y - circle2.y
  sqrtLtQ (dx * dx + dy * dy) (circle1.radius + circle2.radius)

/-- The sort preceding the greedy overlap filter:
`circles.sort((a, b) => b.radius - a.radius)`, i.e. a stable sort into
descending radius order. -/
abbrev circleGE (a b : Circle) : Prop := b.radius ≤ a.radius

instance : IsTotal Circle circleGE :=
  ⟨fun a b => le_total b.radius a.radius⟩

instance : IsTrans Circle circleGE :=
  ⟨fun _ _ _ hab hbc => le_trans hbc hab⟩

/-- Descending-radius sort of the candidate circles. -/
def sortCircles (circles : List Circle) : List Circle :=
  List.insertionSort circleGE circles

/-- The greedy loop of `filterOverlappingCircles`: keep a circle iff it
overlaps none of the already-kept circles; kept circles are appended in
traversal order. -/
def addNonOverlapping (kept : List Circle) : List Circle → List Circle
  | [] => kept
  | c :: cs =>
    if kept.any (fun existing => doCirclesOverlap c existing) then
      addNonOverlapping kept cs
    else
      addNonOverlapping (kept ++ [c]) cs

/-- `filterOverlappingCircles`: sort descending by radius, then greedily
drop overlapping circles. -/
def filterOverlappingCircles (circles : List Circle) : List Circle :=
  addNonOverlapping [] (sortCircles circles)

/-- One entry of the final `filteredCircles.map((circle, index) => ...)`:
index `i`, center normalized by width/height, radius normalized by the
shorter side, empty description. -/
def toDifference (width height : ℕ) (i : ℕ) (c : Circle) : Difference :=
  ⟨i, c.x / (width : ℚ), c.y / (height : ℚ),
   c.radius / ((min width height : ℕ) : ℚ), ""⟩

/-- The final `filteredCircles.map((circle, index) => ...)`: re-index
from `i` and normalize center by width/height and radius by the shorter
side. -/
def numberCircles (width height : ℕ) : ℕ → List Circle → List Difference
  | _, [] => []
  | i, c :: cs =>
    toDifference width height i c :: numberCircles width height (i + 1) cs

/-- Bounding box lies inside the `width × height` pixel grid with
ordered bounds — the invariant every region the labeler produces
satisfies, and every later stage preserves. -/
def RegionInBounds (width height : ℕ) (r : Region) : Prop :=
  0 ≤ r.minX ∧ r.minX ≤ r.maxX ∧ r.maxX ≤ (width : ℚ) - 1 ∧
    0 ≤ r.minY ∧ r.minY ≤ r.maxY ∧ r.maxY ≤ (height : ℚ) - 1

/-! ## The assembled pipeline (`findDifferences`, lines 144-288) -/

/-- Stages 3-6 plus the circle conversion: everything between the
diff-map and the overlap filter, producing the candidate circle list
(`allCircles` in the source). -/
def pipelineCircles (o m : Image) (p : AnalysisParams) : List Circle :=
  let width := o.width
  let height := o.height
  let dm : ℤ → ℤ → Bool := fun x y =>
    pixelDifferent o m p.colorThreshold (y * (width : ℤ) + x).toNat
  let regions := findConnectedComponents dm width height
  let filteredRegions := regionFilter p regions
  let mergedRegions := mergeNearbyRegions filteredRegions p.mergeDistance
  let finalRegions := filterLargeRegions p width height mergedRegions
  finalRegions.map (regionToCircle p)

/-- `findDifferences`: dimension checks, diff map with zero-count early
exit, then the region/circle pipeline.  A thrown `Error` is embedded as
a typed `Except.error`. -/
def findDifferences (o m : Image) (p : AnalysisParams) :
    Except AnalysisError (List Difference) :=
  if o.width = 0 ∨ o.height = 0 then .error .zeroDimension
  else if o.width ≠ m.width ∨ o.height ≠ m.height then .error .dimensionMismatch
  else if differencePixelCount o m p.colorThreshold = 0 then .ok []
  else .ok (numberCircles o.width o.height 0
    (filterOverlappingCircles (pipelineCircles o m p)))

/-! ## Claim-side (specification-worded) definitions -/

/-- The interior-pixel coordinate sequence the complexity loops visit
(`x` from 1 to `width - 2`, `y` from 1 to `height - 2`). -/
def interiorCells (img : Image) : List (ℕ × ℕ) :=
  (List.range' 1 (img.height - 2)).flatMap
    (fun y => (List.range' 1 (img.width - 2)).map (fun x => (x, y)))

/-- Number of interior pixels that pass the brightness-gradient edge
test (spec §4.1's "edge-pixel count"). -/
def edgePixelCount (img : Image) : ℕ :=
  (interiorCells img).countP (fun c => isEdgeAt img c.1 c.2)

/-- Claim-side definition for C7, following the claim's words: the
edge-pixel count divided by the total interior pixel count
`(width - 2) * (height - 2)`.  (The source divides by
`width * height` instead; see the C7 theorems.) -/
def specComplexity (img : Image) : ℚ :=
  (edgePixelCount img : ℚ) / (((img.width : ℚ) - 2) * ((img.height : ℚ) - 2))

/-- Claim-side predicate for C6, following the claim's words: size at
least `minRegionSize`, aspect ratio inside the closed interval
`[minAspectRatio, maxAspectRatio]`, nonzero bounding area, and density
not below `minDensity` unless the size waiver applies.  (The source
uses strict aspect and density comparisons; see the C6 theorems.) -/
def specRegionKeep (p : AnalysisParams) (r : Region) : Bool :=
  let w := r.maxX - r.minX + 1
  let h := r.maxY - r.minY + 1
  decide (p.minRegionSize ≤ r.size) &&
    decide (p.minAspectRatio ≤ w / h ∧ w / h ≤ p.maxAspectRatio) &&
    decide (w * h ≠ 0) &&
    (decide (p.minDensity ≤ r.size / (w * h)) || decide (p.minRegionSize * 10 < r.size))

/-! ## Concrete test inputs

Small pixel buffers and parameter sets used by the witness and
counterexample theorems below. -/

/-- A 3×1 all-black buffer. -/
def oW : Image := ⟨3, 1, fun _ => 0⟩

/-- A 3×1 buffer that differs from `oW` in pixels 0 and 2 (red byte set
to 255 at flat indices 0 and 8). -/
def mW : Image := ⟨3, 1, fun i => if i = 0 ∨ i = 8 then (255 : ℚ) else 0⟩

/-- Parameters that keep both single-pixel regions of `oW` vs `mW`. -/
def pW : AnalysisParams := ⟨1, 40, 1, 1, 1 / 5, 1 / 10, 10, 2 / 5, 13 / 10⟩

/-- A 1×1 all-black buffer. -/
def oU : Image := ⟨1, 1, fun _ => 0⟩

/-- A 1×1 buffer whose only pixel differs from `oU` (red byte 255). -/
def mU : Image := ⟨1, 1, fun i => if i = 0 then (255 : ℚ) else 0⟩

/-- Parameters accepting the single-pixel region of `oU` vs `mU`. -/
def pU : AnalysisParams := ⟨1, 0, 1, 25, 1 / 5, 1 / 10, 10, 2 / 5, 13 / 10⟩

/-- The single radius-zero difference the engine emits for `oU` vs
`mU`. -/
def dU : Difference := ⟨0, 0, 0, 0, ""⟩

/-- A 3×3 buffer whose center pixel (flat bytes 16-18) is white on an
otherwise black background: exactly one interior pixel, which is an
edge pixel. -/
def img3 : Image := ⟨3, 3, fun i => if i = 16 ∨ i = 17 ∨ i = 18 then (255 : ℚ) else 0⟩

/-- A 100×100 all-black buffer (spec scenario E). -/
def imgE1 : Image := ⟨100, 100, fun _ => 0⟩

/-- A 100×101 all-black buffer (spec scenario E). -/
def imgE2 : Image := ⟨100, 101, fun _ => 0⟩

/-- A 10×10-bounding-box region of 20 pixels: aspect ratio exactly 1
and density exactly 1/5. -/
def rC6 : Region := ⟨0, 9, 0, 9, 20⟩

/-- Parameters with `minAspectRatio = 1` and `minDensity = 1/5`, so
`rC6` sits exactly on both boundaries. -/
def pC6 : AnalysisParams := ⟨1, 40, 2, 25, 1 / 5, 1, 10, 2 / 5, 13 / 10⟩

/-! ## Square-root bridge lemmas

The engine only ever compares `Math.sqrt s` against another number; the
two Boolean embeddings above are exactly those comparisons read through
`Real.sqrt`. -/

theorem sqrtGtQ_correct (s t : ℚ) :
    sqrtGtQ s t = true ↔ (t : ℝ) < Real.sqrt (s : ℝ) := by
  unfold sqrtGtQ
  rw [decide_eq_true_iff]
  constructor
  · rintro (h | h)
    · exact lt_of_lt_of_le (by exact_mod_cast h) (Real.sqrt_nonneg _)
    · rcases lt_or_le t 0 with h0 | h0
      · exact lt_of_lt_of_le (by exact_mod_cast h0) (Real.sqrt_nonneg _)
      · rw [Real.lt_sqrt (by exact_mod_cast h0)]
        have h' : ((t * t : ℚ) : ℝ) < ((s : ℚ) : ℝ) := by exact_mod_cast h
        push_cast at h' ⊢
        nlinarith
  · intro h
    by_contra hcon
    push_neg at hcon
    obtain ⟨h1, h2⟩ := hcon
    have hsq : Real.sqrt (s : ℝ) ≤ (t : ℝ) := by
      have ht2 : ((s : ℚ) : ℝ) ≤ ((t * t : ℚ) : ℝ) := by exact_mod_cast h2
      calc Real.sqrt (s : ℝ) ≤ Real.sqrt ((t : ℝ) ^ 2) := by
            apply Real.sqrt_le_sqrt
            push_cast at ht2
            nlinarith
      _ = (t : ℝ) := Real.sqrt_sq (by exact_mod_cast h1)
    exact absurd h (not_lt.mpr hsq)

theorem sqrtLtQ_correct (s t : ℚ) :
    sqrtLtQ s t = true ↔ Real.sqrt (s : ℝ) < (t : ℝ) := by
  unfold sqrtLtQ
  rw [decide_eq_true_iff]
  constructor
  · rintro ⟨h0, h⟩
    rw [Real.sqrt_lt' (by exact_mod_cast h0)]
    calc (s : ℝ) < ((t * t : ℚ) : ℝ) := by exact_mod_cast h
    _ = (t : ℝ) ^ 2 := by push_cast; ring
  · intro h
    have h0 : (0 : ℝ) < (t : ℝ) := lt_of_le_of_lt (Real.sqrt_nonneg _) h
    refine ⟨by exact_mod_cast h0, ?_⟩
    rw [Real.sqrt_lt' h0] at h
    have : (s : ℝ) < ((t * t : ℚ) : ℝ) := by
      calc (s : ℝ) < (t : ℝ) ^ 2 := h
      _ = ((t * t : ℚ) : ℝ) := by push_cast; ring
    exact_mod_cast this

/-- When `sqrtLtQ s r` reports no overlap (`false`), the real square
root of `s` is at least `r` — the inequality form the non-overlap
invariant needs. -/
theorem sqrtLtQ_false_le (s t : ℚ) (h : sqrtLtQ s t = false) :
    (t : ℝ) ≤ Real.sqrt (s : ℝ) := by
  unfold sqrtLtQ at h
  rw [decide_eq_false_iff_not] at h
  push_neg at h
  rcases le_or_lt t 0 with h0 | h0
  · exact le_trans (by exact_mod_cast h0) (Real.sqrt_nonneg _)
  · have hle : t * t ≤ s := h h0
    calc (t : ℝ) = Real.sqrt ((t : ℝ) ^ 2) := (Real.sqrt_sq (by positivity)).symm
    _ ≤ Real.sqrt (s : ℝ) := by
        apply Real.sqrt_le_sqrt
        calc ((t : ℝ)) ^ 2 = ((t * t : ℚ) : ℝ) := by push_cast; ring
        _ ≤ (s : ℝ) := by exact_mod_cast hle

/-! ## C2: identity law -/

/-- C2: if the two equal, positive-dimension buffers agree on every byte
of the `width * height * 4` RGBA array and `colorThreshold ≥ 0`, the
diff-map count is zero and the engine succeeds with the empty
sequence (the zero-count early exit). -/
theorem identical_images_empty_result (o m : Image) (p : AnalysisParams)
    (hw : 0 < o.width) (hh : 0 < o.height)
    (hweq : o.width = m.width) (hheq : o.height = m.height)
    (hdata : ∀ i, i < o.width * o.height * 4 → o.data i = m.data i)
    (ht : 0 ≤ p.colorThreshold) :
    differencePixelCount o m p.colorThreshold = 0 ∧
      findDifferences o m p = .ok [] := by
  have hcount : differencePixelCount o m p.colorThreshold = 0 := by
    unfold differencePixelCount
    rw [List.countP_eq_zero]
    intro j hj
    rw [List.mem_range] at hj
    have h0 : o.data (4 * j) = m.data (4 * j) := hdata _ (by omega)
    have h1 : o.data (4 * j + 1) = m.data (4 * j + 1) := hdata _ (by omega)
    have h2 : o.data (4 * j + 2) = m.data (4 * j + 2) := hdata _ (by omega)
    unfold pixelDifferent sqrtGtQ
    simp only [h0, h1, h2, sub_self, mul_zero, add_zero]
    rw [decide_eq_true_iff]
    push_neg
    exact ⟨ht, mul_self_nonneg p.colorThreshold⟩
  refine ⟨hcount, ?_⟩
  have hA : ¬(o.width = 0 ∨ o.height = 0) := by omega
  have hB : ¬(o.width ≠ m.width ∨ o.height ≠ m.height) := by
    push_neg
    exact ⟨hweq, hheq⟩
  rw [findDifferences, if_neg hA, if_neg hB, if_pos hcount]

/-- C2 witness: the engine on the concrete 3×1 buffer `oW` against
itself with the `pW` parameters (threshold 40). -/
theorem identical_images_empty_result_witness :
    differencePixelCount oW oW pW.colorThreshold = 0 ∧
      findDifferences oW oW pW = .ok [] :=
  identical_images_empty_result oW oW pW (by norm_num [oW]) (by norm_num [oW])
    rfl rfl (fun _ _ => rfl) (by norm_num [pW])

/-! ## C4: threshold monotonicity -/

/-- C4: raising the color threshold can only clear diff-map bits: every
pixel marked different at the higher threshold `t2` is marked at the
lower `t1`, and the marked-pixel count at `t2` is at most the count at
`t1`. -/
theorem threshold_monotonicity (o m : Image) (t1 t2 : ℚ) (hle : t1 ≤ t2) :
    (∀ j, pixelDifferent o m t2 j = true → pixelDifferent o m t1 j = true) ∧
      differencePixelCount o m t2 ≤ differencePixelCount o m t1 := by
  have hsub : ∀ j, pixelDifferent o m t2 j = true → pixelDifferent o m t1 j = true := by
    intro j hj
    unfold pixelDifferent sqrtGtQ at hj ⊢
    rw [decide_eq_true_iff] at hj ⊢
    rcases hj with h | h
    · exact Or.inl (lt_of_le_of_lt hle h)
    · rcases lt_or_le t1 0 with h1 | h1
      · exact Or.inl h1
      · refine Or.inr (lt_of_le_of_lt ?_ h)
        have h2 : (0 : ℚ) ≤ t2 := le_trans h1 hle
        nlinarith
  exact ⟨hsub, List.countP_mono_left (fun j _ => hsub j)⟩

/-- C4 witness: thresholds 40 ≤ 300 on the concrete buffers `oW`, `mW`. -/
theorem threshold_monotonicity_witness :
    (∀ j, pixelDifferent oW mW 300 j = true → pixelDifferent oW mW 40 j = true) ∧
      differencePixelCount oW mW 300 ≤ differencePixelCount oW mW 40 :=
  threshold_monotonicity oW mW 40 300 (by norm_num)

/-! ## C8: dimension checks fail fast -/

/-- C8: whenever the two buffers disagree in width or height, or either
buffer has a zero dimension, `findDifferences` returns a typed error —
the checks precede all pixel processing, so no Differences are
produced. -/
theorem dimension_checks_fail (o m : Image) (p : AnalysisParams)
    (h : o.width ≠ m.width ∨ o.height ≠ m.height ∨
      o.width = 0 ∨ o.height = 0 ∨ m.width = 0 ∨ m.height = 0) :
    ∃ e : AnalysisError, findDifferences o m p = .error e := by
  unfold findDifferences
  by_cases hz : o.width = 0 ∨ o.height = 0
  · exact ⟨.zeroDimension, by rw [if_pos hz]⟩
  · refine ⟨.dimensionMismatch, ?_⟩
    rw [if_neg hz, if_pos ?_]
    push_neg at hz
    rcases h with h | h | h | h | h | h
    · exact Or.inl h
    · exact Or.inr h
    · exact absurd h hz.1
    · exact absurd h hz.2
    · exact Or.inl (by omega)
    · exact Or.inr (by omega)

/-- C8 witness: spec scenario E, 100×100 against 100×101. -/
theorem dimension_checks_fail_witness :
    ∃ e : AnalysisError, findDifferences imgE1 imgE2 pW = .error e :=
  dimension_checks_fail imgE1 imgE2 pW
    (Or.inr (Or.inl (by norm_num [imgE1, imgE2])))

/-! ## C10: degenerate interiors score zero complexity -/

/-- Folding the edge-counting step over any row list does nothing when
every inner column list is empty. -/
theorem foldl_const_acc (l : List ℕ) (acc : ℕ)
    (g : ℕ → ℕ → ℕ) (hg : ∀ a y, g a y = a) : l.foldl g acc = acc := by
  induction l generalizing acc with
  | nil => rfl
  | cons y ys ih => rw [List.foldl_cons, hg, ih]

/-- C10: an image with positive dimensions but `width ≤ 2` or
`height ≤ 2` has no interior gradient pixels, scores complexity 0, and
the adaptive tuner therefore picks the low-complexity preset. -/
theorem thin_image_low_preset (img : Image)
    (hw : 0 < img.width) (hh : 0 < img.height)
    (hthin : img.width ≤ 2 ∨ img.height ≤ 2) :
    calculateImageComplexity img = 0 ∧
      getAdaptiveParameters (calculateImageComplexity img) =
        ⟨1, 40, 150, 25, 20 / 100, 1 / 10, 10, 40 / 100, 13 / 10⟩ := by
  have hzero : calculateImageComplexity img = 0 := by
    unfold calculateImageComplexity
    rcases hthin with hthin | hthin
    · have hcols : List.range' 1 (img.width - 2) = [] := by
        have : img.width - 2 = 0 := by omega
        rw [this, List.range'_zero]
      rw [foldl_const_acc _ _ _ (fun a y => by rw [hcols, List.foldl_nil])]
      norm_num
    · have hrows : List.range' 1 (img.height - 2) = [] := by
        have : img.height - 2 = 0 := by omega
        rw [this, List.range'_zero]
      rw [hrows, List.foldl_nil]
      norm_num
  refine ⟨hzero, ?_⟩
  rw [hzero, getAdaptiveParameters, if_pos (by norm_num)]

/-- C10 witness: the 3×1 buffer `oW`. -/
theorem thin_image_low_preset_witness :
    calculateImageComplexity oW = 0 ∧
      getAdaptiveParameters (calculateImageComplexity oW) =
        ⟨1, 40, 150, 25, 20 / 100, 1 / 10, 10, 40 / 100, 13 / 10⟩ :=
  thin_image_low_preset oW (by norm_num [oW]) (by norm_num [oW])
    (Or.inr (by norm_num [oW]))

/-! ## C7: complexity normalization -/

/-- Folding the if-increment counter over a list counts the matching
elements. -/
theorem foldl_if_count (q : ℕ → Bool) (l : List ℕ) (acc : ℕ) :
    l.foldl (fun a x => if q x then a + 1 else a) acc = acc + l.countP q := by
  induction l generalizing acc with
  | nil => simp
  | cons x xs ih =>
    rw [List.foldl_cons, ih, List.countP_cons]
    by_cases h : q x
    · simp [h]
      omega
    · simp [h]

/-- The nested complexity loops count exactly the edge pixels among the
interior cells. -/
theorem complexity_foldl_eq (img : Image) (rows : List ℕ) (acc : ℕ) :
    rows.foldl (fun a y =>
        (List.range' 1 (img.width - 2)).foldl
          (fun a2 x => if isEdgeAt img x y then a2 + 1 else a2) a) acc =
      acc + (rows.flatMap (fun y =>
        (List.range' 1 (img.width - 2)).map (fun x => (x, y)))).countP
          (fun c => isEdgeAt img c.1 c.2) := by
  induction rows generalizing acc with
  | nil => simp
  | cons y ys ih =>
    rw [List.foldl_cons, ih, foldl_if_count, List.flatMap_cons, List.countP_append,
      List.countP_map]
    have hcomp : ((fun c : ℕ × ℕ => isEdgeAt img c.1 c.2) ∘ fun x => (x, y)) =
        fun x => isEdgeAt img x y := rfl
    rw [hcomp]
    omega

/-- C7 (amended): `calculateImageComplexity` divides the edge-pixel
count by the TOTAL pixel count `width * height`, not by the interior
pixel count. -/
theorem complexity_normalizes_by_total_pixels (img : Image)
    (hw : 0 < img.width) (hh : 0 < img.height) :
    calculateImageComplexity img =
      (edgePixelCount img : ℚ) / ((img.width : ℚ) * (img.height : ℚ)) := by
  have _ := hw
  have _ := hh
  unfold calculateImageComplexity edgePixelCount interiorCells
  rw [complexity_foldl_eq]
  norm_num

/-- C7 witness: the concrete 3×3 buffer `img3`. -/
theorem complexity_normalizes_by_total_pixels_witness :
    calculateImageComplexity img3 =
      (edgePixelCount img3 : ℚ) / ((img3.width : ℚ) * (img3.height : ℚ)) :=
  complexity_normalizes_by_total_pixels img3 (by norm_num [img3]) (by norm_num [img3])

/-- C7 counterexample: on `img3` (one edge pixel, one interior pixel)
the source returns `1/9` — the edge count divided by all nine pixels —
while the claim's interior normalization would give `1`. -/
theorem complexity_interior_normalization_fails :
    calculateImageComplexity img3 = 1 / 9 ∧ edgePixelCount img3 = 1 ∧
      specComplexity img3 = 1 ∧ (1 / 9 : ℚ) ≠ 1 := by
  have hedge : edgePixelCount img3 = 1 := by
    norm_num [edgePixelCount, interiorCells, img3, List.range'_one, isEdgeAt,
      brightnessAt]
  refine ⟨?_, hedge, ?_, by norm_num⟩
  · norm_num [calculateImageComplexity, img3, List.range'_one, isEdgeAt,
      brightnessAt]
  · have h3w : img3.width = 3 := rfl
    have h3h : img3.height = 3 := rfl
    rw [specComplexity, hedge, h3w, h3h]
    norm_num

/-! ## C6: the region filters -/

/-- The combined Boolean the three chained region filters test,
re-expressed as a single decidable condition: note the strict aspect
bounds and the strict density bound. -/
theorem regionKeep_characterization (p : AnalysisParams) (r : Region) :
    (densityKeep p r && aspectKeep p r && sizeKeep p r) =
      decide (p.minRegionSize ≤ r.size ∧
        (r.maxX - r.minX + 1 ≠ 0 ∧ r.maxY - r.minY + 1 ≠ 0) ∧
        (p.minAspectRatio < (r.maxX - r.minX + 1) / (r.maxY - r.minY + 1) ∧
          (r.maxX - r.minX + 1) / (r.maxY - r.minY + 1) < p.maxAspectRatio) ∧
        (r.maxX - r.minX + 1) * (r.maxY - r.minY + 1) ≠ 0 ∧
        (p.minRegionSize * 10 < r.size ∨
          p.minDensity < r.size / ((r.maxX - r.minX + 1) * (r.maxY - r.minY + 1)))) := by
  simp only [densityKeep, aspectKeep, sizeKeep]
  by_cases hW : r.maxX - r.minX + 1 = 0
  · simp [hW]
  · by_cases hH : r.maxY - r.minY + 1 = 0
    · simp [hW, hH]
    · rw [if_neg (mul_ne_zero hW hH), if_neg (not_or.mpr ⟨hH, hW⟩)]
      simp only [← Bool.decide_or, ← Bool.decide_and]
      rw [decide_eq_decide]
      constructor
      · rintro ⟨⟨hd, ha⟩, hs⟩
        exact ⟨hs, ⟨hW, hH⟩, ha, mul_ne_zero hW hH, hd⟩
      · rintro ⟨hs, _, ha, _, hd⟩
        exact ⟨⟨hd, ha⟩, hs⟩

/-- C6 (amended): RegionFilter keeps exactly the regions with
`size ≥ minRegionSize`, nonzero bounding-box extents, aspect ratio
STRICTLY inside `(minAspectRatio, maxAspectRatio)`, nonzero bounding
area, and either the large-size density waiver or density STRICTLY
above `minDensity` — in the original relative order. -/
theorem regionFilter_keeps_exactly (p : AnalysisParams) (rs : List Region) :
    regionFilter p rs = rs.filter (fun r =>
      decide (p.minRegionSize ≤ r.size ∧
        (r.maxX - r.minX + 1 ≠ 0 ∧ r.maxY - r.minY + 1 ≠ 0) ∧
        (p.minAspectRatio < (r.maxX - r.minX + 1) / (r.maxY - r.minY + 1) ∧
          (r.maxX - r.minX + 1) / (r.maxY - r.minY + 1) < p.maxAspectRatio) ∧
        (r.maxX - r.minX + 1) * (r.maxY - r.minY + 1) ≠ 0 ∧
        (p.minRegionSize * 10 < r.size ∨
          p.minDensity < r.size / ((r.maxX - r.minX + 1) * (r.maxY - r.minY + 1))))) := by
  rw [regionFilter, List.filter_filter, List.filter_filter]
  exact List.filter_congr (fun r _ => regionKeep_characterization p r)

/-- C6 counterexample: the region `rC6` sits exactly on the
`minAspectRatio` and `minDensity` boundaries, so the claim's closed
interval and "not below" density test keep it, but the code's strict
comparisons drop it. -/
theorem regionFilter_boundary_dropped :
    specRegionKeep pC6 rC6 = true ∧ regionFilter pC6 [rC6] = [] := by
  constructor
  · norm_num [specRegionKeep, rC6, pC6]
  · norm_num [regionFilter, sizeKeep, aspectKeep, densityKeep, rC6, pC6]

/-! ## C5: the merge loop reaches a fixpoint -/

/-- If the inner merge scan reports no merge, it returned its inputs
unchanged and nothing in the tail merges with the accumulator. -/
theorem mergeInto_false (d : ℚ) (acc : Region) (rs : List Region)
    (h : (mergeInto d acc rs).2.2 = false) :
    (mergeInto d acc rs).1 = acc ∧ (mergeInto d acc rs).2.1 = rs ∧
      ∀ r ∈ rs, shouldMerge acc r d = false := by
  induction rs generalizing acc with
  | nil => exact ⟨rfl, rfl, by simp⟩
  | cons r rs ih =>
    cases hm : shouldMerge acc r d with
    | true =>
      simp only [mergeInto, hm, if_true] at h
      exact Bool.noConfusion h
    | false =>
      simp only [mergeInto, hm, Bool.false_eq_true, if_false] at h ⊢
      obtain ⟨h1, h2, h3⟩ := ih acc h
      refine ⟨h1, by rw [h2], ?_⟩
      intro x hx
      rcases List.mem_cons.mp hx with hx | hx
      · rw [hx]
        exact hm
      · exact h3 x hx

/-- The inner merge scan never lengthens the tail. -/
theorem mergeInto_length_le (d : ℚ) (acc : Region) (rs : List Region) :
    (mergeInto d acc rs).2.1.length ≤ rs.length := by
  induction rs generalizing acc with
  | nil => simp [mergeInto]
  | cons r rs ih =>
    cases hm : shouldMerge acc r d with
    | true =>
      simp only [mergeInto, hm, if_true]
      exact le_trans (ih _) (by simp)
    | false =>
      simp only [mergeInto, hm, Bool.false_eq_true, if_false, List.length_cons]
      simpa using ih acc

/-- A merging inner scan strictly shortens the tail. -/
theorem mergeInto_true_length_lt (d : ℚ) (acc : Region) (rs : List Region)
    (h : (mergeInto d acc rs).2.2 = true) :
    (mergeInto d acc rs).2.1.length < rs.length := by
  induction rs generalizing acc with
  | nil => simp [mergeInto] at h
  | cons r rs ih =>
    cases hm : shouldMerge acc r d with
    | true =>
      simp only [mergeInto, hm, if_true]
      exact lt_of_le_of_lt (mergeInto_length_le d _ rs) (by simp)
    | false =>
      simp only [mergeInto, hm, Bool.false_eq_true, if_false] at h ⊢
      simpa using ih acc h

/-- A full pass never lengthens the list. -/
theorem mergePassFuel_length_le (d : ℚ) (fuel : ℕ) (rs : List Region) :
    (mergePassFuel d fuel rs).1.length ≤ rs.length := by
  induction fuel generalizing rs with
  | zero => cases rs <;> simp [mergePassFuel]
  | succ fuel ih =>
    cases rs with
    | nil => simp [mergePassFuel]
    | cons r rs =>
      simp only [mergePassFuel, List.length_cons]
      have h1 := ih (mergeInto d r rs).2.1
      have h2 := mergeInto_length_le d r rs
      omega

/-- A full pass of a nonempty list is nonempty. -/
theorem mergePassFuel_ne_nil (d : ℚ) (fuel : ℕ) (rs : List Region)
    (h : rs ≠ []) : (mergePassFuel d fuel rs).1 ≠ [] := by
  cases fuel with
  | zero =>
    cases rs with
    | nil => exact absurd rfl h
    | cons r rs => rw [mergePassFuel]; exact List.cons_ne_nil r rs
  | succ fuel =>
    cases rs with
    | nil => exact absurd rfl h
    | cons r rs =>
      simp only [mergePassFuel]
      simp

/-- A merging pass strictly shortens the list (given enough fuel). -/
theorem mergePassFuel_true_lt (d : ℚ) (fuel : ℕ) (rs : List Region)
    (hfuel : rs.length ≤ fuel) (h : (mergePassFuel d fuel rs).2 = true) :
    (mergePassFuel d fuel rs).1.length < rs.length := by
  induction fuel generalizing rs with
  | zero =>
    cases rs with
    | nil => simp [mergePassFuel] at h
    | cons r rs => simp at hfuel
  | succ fuel ih =>
    cases rs with
    | nil => simp [mergePassFuel] at h
    | cons r rs =>
      simp only [mergePassFuel, List.length_cons] at h ⊢
      rcases Bool.or_eq_true_iff.mp h with hin | hrest
      · have h1 := mergePassFuel_length_le d fuel (mergeInto d r rs).2.1
        have h2 := mergeInto_true_length_lt d r rs hin
        omega
      · have h2 := mergeInto_length_le d r rs
        have h1 := ih (mergeInto d r rs).2.1
          (le_trans h2 (by simpa using hfuel)) hrest
        omega

/-- A non-merging pass returns its input unchanged (given enough
fuel). -/
theorem mergePassFuel_false_eq (d : ℚ) (fuel : ℕ) (rs : List Region)
    (hfuel : rs.length ≤ fuel) (h : (mergePassFuel d fuel rs).2 = false) :
    (mergePassFuel d fuel rs).1 = rs := by
  induction fuel generalizing rs with
  | zero =>
    cases rs with
    | nil => rfl
    | cons r rs => simp at hfuel
  | succ fuel ih =>
    cases rs with
    | nil => rfl
    | cons r rs =>
      simp only [mergePassFuel] at h ⊢
      rcases Bool.or_eq_false_iff.mp h with ⟨hin, hrest⟩
      obtain ⟨h1, h2, _⟩ := mergeInto_false d r rs hin
      have h3 := ih (mergeInto d r rs).2.1
        (le_trans (mergeInto_length_le d r rs) (by simpa using hfuel)) hrest
      rw [h1, h3, h2]

/-- After a non-merging pass, no pair of regions in the list is within
merge distance. -/
theorem mergePassFuel_false_pairwise (d : ℚ) (fuel : ℕ) (rs : List Region)
    (hfuel : rs.length ≤ fuel) (h : (mergePassFuel d fuel rs).2 = false) :
    rs.Pairwise (fun r1 r2 => shouldMerge r1 r2 d = false) := by
  induction fuel generalizing rs with
  | zero =>
    cases rs with
    | nil => exact List.Pairwise.nil
    | cons r rs => simp at hfuel
  | succ fuel ih =>
    cases rs with
    | nil => exact List.Pairwise.nil
    | cons r rs =>
      simp only [mergePassFuel] at h
      rcases Bool.or_eq_false_iff.mp h with ⟨hin, hrest⟩
      obtain ⟨_, h2, h3⟩ := mergeInto_false d r rs hin
      rw [h2] at hrest
      exact List.Pairwise.cons h3
        (ih rs (by simpa using hfuel) hrest)

/-- The outer merge loop always ends on a pass that performs no
merges. -/
theorem mergeLoopFuel_no_merges (d : ℚ) (fuel : ℕ) (rs : List Region)
    (hne : rs ≠ []) (hfuel : rs.length ≤ fuel) :
    (mergePassFuel d (mergeLoopFuel d fuel rs).length (mergeLoopFuel d fuel rs)).2 = false := by
  induction fuel generalizing rs with
  | zero =>
    have : rs.length = 0 := Nat.le_zero.mp hfuel
    exact absurd (List.length_eq_zero.mp this) hne
  | succ fuel ih =>
    rw [mergeLoopFuel]
    simp only [mergePass]
    cases hp : (mergePassFuel d rs.length rs).2 with
    | true =>
      rw [if_pos rfl]
      have hlt := mergePassFuel_true_lt d rs.length rs le_rfl hp
      exact ih (mergePassFuel d rs.length rs).1
        (mergePassFuel_ne_nil d rs.length rs hne) (by omega)
    | false =>
      rw [if_neg (by simp)]
      rw [mergePassFuel_false_eq d rs.length rs le_rfl hp]
      exact hp

/-- C5: RegionMerger reaches a fixpoint — re-running
`mergeNearbyRegions` on its own output (same `mergeDistance`) returns
that output unchanged, and no pair of output regions has bounding-box
gap below `mergeDistance`. -/
theorem mergeNearbyRegions_fixpoint (rs : List Region) (d : ℚ) :
    mergeNearbyRegions (mergeNearbyRegions rs d) d = mergeNearbyRegions rs d ∧
      (mergeNearbyRegions rs d).Pairwise
        (fun r1 r2 => shouldMerge r1 r2 d = false) := by
  by_cases hlen : rs.length < 2
  · have hout : mergeNearbyRegions rs d = rs := by
      rw [mergeNearbyRegions, if_pos hlen]
    rw [hout, mergeNearbyRegions, if_pos hlen]
    refine ⟨rfl, ?_⟩
    match rs, hlen with
    | [], _ => exact List.Pairwise.nil
    | [r], _ => exact List.pairwise_singleton _ r
  · have hne : rs ≠ [] := by
      intro hcon
      rw [hcon] at hlen
      simp at hlen
    have hout : mergeNearbyRegions rs d = mergeLoopFuel d rs.length rs := by
      rw [mergeNearbyRegions, if_neg hlen]
    set out := mergeLoopFuel d rs.length rs with hdef
    have hfix : (mergePassFuel d out.length out).2 = false :=
      mergeLoopFuel_no_merges d rs.length rs hne le_rfl
    have houteq : (mergePassFuel d out.length out).1 = out :=
      mergePassFuel_false_eq d out.length out le_rfl hfix
    have hpw : out.Pairwise (fun r1 r2 => shouldMerge r1 r2 d = false) :=
      mergePassFuel_false_pairwise d out.length out le_rfl hfix
    rw [hout]
    refine ⟨?_, hpw⟩
    by_cases hlen2 : out.length < 2
    · rw [mergeNearbyRegions, if_pos hlen2]
    · rw [mergeNearbyRegions, if_neg hlen2]
      obtain ⟨k, hk⟩ : ∃ k, out.length = k + 1 := by
        refine ⟨out.length - 1, ?_⟩
        omega
      have hpass0 : mergePassFuel d out.length out = (out, false) := by
        rw [Prod.ext_iff]
        exact ⟨houteq, hfix⟩
      rw [hk, mergeLoopFuel, mergePass, hpass0]
      simp

/-! ## CircleResolver structure lemmas (towards C1, C3, C9) -/

/-- The greedy keeper only ever appends to the kept prefix, and what it
appends is a sublist of the remaining candidates. -/
theorem addNonOverlapping_append (rest kept : List Circle) :
    ∃ t, addNonOverlapping kept rest = kept ++ t ∧ t.Sublist rest := by
  induction rest generalizing kept with
  | nil => exact ⟨[], by simp [addNonOverlapping]⟩
  | cons c cs ih =>
    by_cases hov : kept.any (fun existing => doCirclesOverlap c existing) = true
    · obtain ⟨t, ht, hsub⟩ := ih kept
      rw [addNonOverlapping, if_pos hov]
      exact ⟨t, ht, hsub.cons c⟩
    · obtain ⟨t, ht, hsub⟩ := ih (kept ++ [c])
      rw [addNonOverlapping, if_neg hov]
      refine ⟨c :: t, ?_, hsub.cons₂ c⟩
      rw [ht, List.append_assoc, List.singleton_append]

/-- Every circle the greedy keeper emits was among the kept prefix or
the candidates. -/
theorem addNonOverlapping_mem (rest kept : List Circle) (x : Circle)
    (hx : x ∈ addNonOverlapping kept rest) : x ∈ kept ∨ x ∈ rest := by
  obtain ⟨t, ht, hsub⟩ := addNonOverlapping_append rest kept
  rw [ht, List.mem_append] at hx
  exact hx.imp id (fun h => hsub.mem h)

/-- The greedy keeper preserves pairwise non-overlap of the kept list:
every kept circle fails `doCirclesOverlap` against every
earlier-kept circle. -/
theorem addNonOverlapping_pairwise (rest kept : List Circle)
    (hkept : kept.Pairwise (fun e c => doCirclesOverlap c e = false)) :
    (addNonOverlapping kept rest).Pairwise
      (fun e c => doCirclesOverlap c e = false) := by
  induction rest generalizing kept with
  | nil => exact hkept
  | cons c cs ih =>
    by_cases hov : kept.any (fun existing => doCirclesOverlap c existing) = true
    · rw [addNonOverlapping, if_pos hov]
      exact ih kept hkept
    · rw [addNonOverlapping, if_neg hov]
      refine ih (kept ++ [c]) ?_
      rw [List.pairwise_append]
      refine ⟨hkept, List.pairwise_singleton _ c, ?_⟩
      intro e he c' hc'
      rw [List.mem_singleton] at hc'
      subst hc'
      exact Bool.eq_false_iff.mpr ((List.any_eq_false.mp (Bool.eq_false_iff.mpr hov)) e he)

/-- The sorted candidate list is in descending radius order. -/
theorem sortCircles_sorted (cs : List Circle) :
    (sortCircles cs).Pairwise circleGE :=
  List.sorted_insertionSort circleGE cs

/-- The kept circles are a sublist of the sorted candidates. -/
theorem filterOverlappingCircles_sublist (cs : List Circle) :
    (filterOverlappingCircles cs).Sublist (sortCircles cs) := by
  obtain ⟨t, ht, hsub⟩ := addNonOverlapping_append (sortCircles cs) []
  rw [filterOverlappingCircles, ht, List.nil_append]
  exact hsub

/-- The kept circles are still in descending radius order. -/
theorem filterOverlappingCircles_sorted (cs : List Circle) :
    (filterOverlappingCircles cs).Pairwise circleGE :=
  (sortCircles_sorted cs).sublist (filterOverlappingCircles_sublist cs)

/-- No two kept circles overlap. -/
theorem filterOverlappingCircles_pairwise (cs : List Circle) :
    (filterOverlappingCircles cs).Pairwise
      (fun e c => doCirclesOverlap c e = false) :=
  addNonOverlapping_pairwise (sortCircles cs) [] List.Pairwise.nil

/-- Every kept circle was a candidate. -/
theorem filterOverlappingCircles_mem (cs : List Circle) (x : Circle)
    (hx : x ∈ filterOverlappingCircles cs) : x ∈ cs := by
  rcases addNonOverlapping_mem (sortCircles cs) [] x hx with h | h
  · exact absurd h (List.not_mem_nil x)
  · exact (List.perm_insertionSort circleGE cs).mem_iff.mp h

/-! ## Numbering lemmas -/

/-- Numbering preserves length. -/
theorem numberCircles_length (w h : ℕ) (cs : List Circle) (i : ℕ) :
    (numberCircles w h i cs).length = cs.length := by
  induction cs generalizing i with
  | nil => rfl
  | cons c cs ih => simp [numberCircles, ih]

/-- The `j`-th emitted difference is the `j`-th kept circle normalized,
with id `i + j`. -/
theorem numberCircles_get (w h : ℕ) (cs : List Circle) (i j : ℕ)
    (hj : j < cs.length) (hj2 : j < (numberCircles w h i cs).length) :
    (numberCircles w h i cs).get ⟨j, hj2⟩ =
      toDifference w h (i + j) (cs.get ⟨j, hj⟩) := by
  induction cs generalizing i j with
  | nil => exact absurd hj (by simp)
  | cons c cs ih =>
    cases j with
    | zero => simp [numberCircles]
    | succ j =>
      have hj' : j < cs.length := by simpa using hj
      have hj2' : j < (numberCircles w h (i + 1) cs).length := by
        rw [numberCircles_length]
        exact hj'
      have hstep : (numberCircles w h i (c :: cs)).get ⟨j + 1, hj2⟩ =
          (numberCircles w h (i + 1) cs).get ⟨j, hj2'⟩ := rfl
      rw [hstep, ih (i + 1) j hj' hj2']
      have harith : i + 1 + j = i + (j + 1) := by omega
      rw [harith]
      rfl

/-- Every emitted difference comes from a kept circle. -/
theorem numberCircles_mem (w h : ℕ) (cs : List Circle) (i : ℕ)
    (d : Difference) (hd : d ∈ numberCircles w h i cs) :
    ∃ j c, c ∈ cs ∧ d = toDifference w h j c := by
  induction cs generalizing i with
  | nil => simp [numberCircles] at hd
  | cons c cs ih =>
    rw [numberCircles] at hd
    rcases List.mem_cons.mp hd with hd | hd
    · exact ⟨i, c, List.mem_cons_self c cs, hd⟩
    · obtain ⟨j, c', hc', hd'⟩ := ih (i + 1) hd
      exact ⟨j, c', List.mem_cons_of_mem c hc', hd'⟩

/-- Pairwise relations transfer from kept circles to the emitted
differences. -/
theorem numberCircles_pairwise (w h : ℕ) {Q : Circle → Circle → Prop}
    {P : Difference → Difference → Prop}
    (hPQ : ∀ (i j : ℕ) (a b : Circle), Q a b →
      P (toDifference w h i a) (toDifference w h j b))
    (cs : List Circle) (i : ℕ) (hcs : cs.Pairwise Q) :
    (numberCircles w h i cs).Pairwise P := by
  induction cs generalizing i with
  | nil => exact List.Pairwise.nil
  | cons c cs ih =>
    rw [numberCircles]
    rcases List.pairwise_cons.mp hcs with ⟨hhead, htail⟩
    refine List.Pairwise.cons ?_ (ih (i + 1) htail)
    intro d hd
    obtain ⟨j, c', hc', rfl⟩ := numberCircles_mem w h cs (i + 1) d hd
    exact hPQ i j c c' (hhead c' hc')

/-! ## Region bounds invariants (towards C9) -/

/-- The flood-fill loop keeps the accumulated bounding box inside the
grid: it only ever folds in coordinates that pass the bounds check. -/
theorem floodFillLoop_inBounds (dm : ℤ → ℤ → Bool) (w h : ℕ) (fuel : ℕ)
    (stack : List (ℤ × ℤ)) (visited : Finset (ℤ × ℤ)) (region : Region)
    (hreg : RegionInBounds w h region) :
    RegionInBounds w h (floodFillLoop dm w h fuel stack visited region).1 := by
  induction fuel generalizing stack visited region with
  | zero => exact hreg
  | succ fuel ih =>
    cases stack with
    | nil => exact hreg
    | cons hd stack =>
      obtain ⟨x, y⟩ := hd
      rw [floodFillLoop]
      by_cases hcond : x < 0 ∨ (w : ℤ) ≤ x ∨ y < 0 ∨ (h : ℤ) ≤ y ∨
          (x, y) ∈ visited ∨ dm x y = false
      · rw [if_pos hcond]
        exact ih stack visited region hreg
      · rw [if_neg hcond]
        push_neg at hcond
        obtain ⟨hx0, hxw, hy0, hyh, _, _⟩ := hcond
        obtain ⟨r1, r2, r3, r4, r5, r6⟩ := hreg
        refine ih _ _ _ ⟨?_, ?_, ?_, ?_, ?_, ?_⟩
        · exact le_min r1 (by exact_mod_cast hx0)
        · exact le_trans (min_le_left _ _) (le_trans r2 (le_max_left _ _))
        · refine max_le r3 ?_
          have : x + 1 ≤ (w : ℤ) := hxw
          have hq : ((x : ℚ)) + 1 ≤ ((w : ℕ) : ℚ) := by exact_mod_cast this
          linarith
        · exact le_min r4 (by exact_mod_cast hy0)
        · exact le_trans (min_le_left _ _) (le_trans r5 (le_max_left _ _))
        · refine max_le r6 ?_
          have : y + 1 ≤ (h : ℤ) := hyh
          have hq : ((y : ℚ)) + 1 ≤ ((h : ℕ) : ℚ) := by exact_mod_cast this
          linarith

/-- A flood fill seeded inside the grid produces an in-bounds region. -/
theorem floodFill_inBounds (dm : ℤ → ℤ → Bool) (w h sx sy : ℕ)
    (visited : Finset (ℤ × ℤ)) (hx : sx < w) (hy : sy < h) :
    RegionInBounds w h (floodFill dm w h sx sy visited).1 := by
  rw [floodFill]
  have hseed : RegionInBounds w h ⟨(sx : ℚ), (sx : ℚ), (sy : ℚ), (sy : ℚ), 0⟩ := by
    have hx' : (sx : ℚ) + 1 ≤ (w : ℚ) := by exact_mod_cast hx
    have hy' : (sy : ℚ) + 1 ≤ (h : ℚ) := by exact_mod_cast hy
    exact ⟨by positivity, le_refl _, by linarith, by positivity, le_refl _, by linarith⟩
  exact floodFillLoop_inBounds dm w h _ _ _ _ hseed

/-- Raster cells lie inside the grid. -/
theorem rasterCells_mem (w h x y : ℕ) (hmem : (x, y) ∈ rasterCells w h) :
    x < w ∧ y < h := by
  rw [rasterCells] at hmem
  simp only [List.mem_flatMap, List.mem_map, List.mem_range] at hmem
  obtain ⟨y', hy', x', hx', heq⟩ := hmem
  cases heq
  exact ⟨hx', hy'⟩

/-- Every region the labeler emits is in bounds. -/
theorem findConnectedComponents_inBounds (dm : ℤ → ℤ → Bool) (w h : ℕ) :
    ∀ r ∈ findConnectedComponents dm w h, RegionInBounds w h r := by
  rw [findConnectedComponents]
  have hgen : ∀ (cells : List (ℕ × ℕ)) (st : List Region × Finset (ℤ × ℤ)),
      (∀ c ∈ cells, c.1 < w ∧ c.2 < h) → (∀ r ∈ st.1, RegionInBounds w h r) →
      ∀ r ∈ (cells.foldl (fccStep dm w h) st).1, RegionInBounds w h r := by
    intro cells
    induction cells with
    | nil => intro st _ hst; exact hst
    | cons c cs ihc =>
      intro st hcells hst
      rw [List.foldl_cons]
      refine ihc (fccStep dm w h st c)
        (fun c' hc' => hcells c' (List.mem_cons_of_mem c hc')) ?_
      rw [fccStep]
      by_cases hc : dm (c.1 : ℤ) (c.2 : ℤ) = true ∧ ((c.1 : ℤ), (c.2 : ℤ)) ∉ st.2
      · rw [if_pos hc]
        intro r hr
        rcases List.mem_append.mp hr with hr | hr
        · exact hst r hr
        · rw [List.mem_singleton] at hr
          subst hr
          obtain ⟨h1, h2⟩ := hcells c (List.mem_cons_self c cs)
          exact floodFill_inBounds dm w h c.1 c.2 st.2 h1 h2
      · rw [if_neg hc]
        exact hst
  refine hgen (rasterCells w h) ([], ∅) ?_ (by simp)
  intro c hc
  exact rasterCells_mem w h c.1 c.2 hc

/-- Merging two in-bounds regions stays in bounds. -/
theorem mergeTwoRegions_inBounds (w h : ℕ) (r1 r2 : Region)
    (h1 : RegionInBounds w h r1) (h2 : RegionInBounds w h r2) :
    RegionInBounds w h (mergeTwoRegions r1 r2) := by
  obtain ⟨a1, a2, a3, a4, a5, a6⟩ := h1
  obtain ⟨b1, b2, b3, b4, b5, b6⟩ := h2
  exact ⟨le_min a1 b1,
    le_trans (min_le_left _ _) (le_trans a2 (le_max_left _ _)),
    max_le a3 b3,
    le_min a4 b4,
    le_trans (min_le_left _ _) (le_trans a5 (le_max_left _ _)),
    max_le a6 b6⟩

/-- The inner merge scan preserves any property closed under region
union. -/
theorem mergeInto_pres (P : Region → Prop)
    (hP : ∀ a b, P a → P b → P (mergeTwoRegions a b)) (d : ℚ)
    (rs : List Region) (acc : Region) (hacc : P acc) (hrs : ∀ r ∈ rs, P r) :
    P (mergeInto d acc rs).1 ∧ ∀ r ∈ (mergeInto d acc rs).2.1, P r := by
  induction rs generalizing acc with
  | nil => exact ⟨hacc, by simp [mergeInto]⟩
  | cons r rs ih =>
    have hr : P r := hrs r (List.mem_cons_self r rs)
    have hrs' : ∀ x ∈ rs, P x := fun x hx => hrs x (List.mem_cons_of_mem r hx)
    cases hm : shouldMerge acc r d with
    | true =>
      simp only [mergeInto, hm, if_true]
      exact ih (mergeTwoRegions acc r) (hP acc r hacc hr) hrs'
    | false =>
      simp only [mergeInto, hm, Bool.false_eq_true, if_false]
      obtain ⟨ha, hl⟩ := ih acc hacc hrs'
      refine ⟨ha, ?_⟩
      intro x hx
      rcases List.mem_cons.mp hx with hx | hx
      · rw [hx]; exact hr
      · exact hl x hx

/-- A merge pass preserves any property closed under region union. -/
theorem mergePassFuel_pres (P : Region → Prop)
    (hP : ∀ a b, P a → P b → P (mergeTwoRegions a b)) (d : ℚ) (fuel : ℕ)
    (rs : List Region) (hrs : ∀ r ∈ rs, P r) :
    ∀ r ∈ (mergePassFuel d fuel rs).1, P r := by
  induction fuel generalizing rs with
  | zero =>
    cases rs with
    | nil => simp [mergePassFuel]
    | cons r rs => exact fun x hx => hrs x (by simpa [mergePassFuel] using hx)
  | succ fuel ih =>
    cases rs with
    | nil => simp [mergePassFuel]
    | cons r rs =>
      simp only [mergePassFuel]
      intro x hx
      have hr : P r := hrs r (List.mem_cons_self r rs)
      have hrs' : ∀ a ∈ rs, P a := fun a ha => hrs a (List.mem_cons_of_mem r ha)
      obtain ⟨hacc, htail⟩ := mergeInto_pres P hP d rs r hr hrs'
      rcases List.mem_cons.mp hx with hx | hx
      · rw [hx]; exact hacc
      · exact ih (mergeInto d r rs).2.1 htail x hx

/-- The outer merge loop preserves any property closed under region
union. -/
theorem mergeLoopFuel_pres (P : Region → Prop)
    (hP : ∀ a b, P a → P b → P (mergeTwoRegions a b)) (d : ℚ) (fuel : ℕ)
    (rs : List Region) (hrs : ∀ r ∈ rs, P r) :
    ∀ r ∈ mergeLoopFuel d fuel rs, P r := by
  induction fuel generalizing rs with
  | zero => exact hrs
  | succ fuel ih =>
    rw [mergeLoopFuel]
    have hpass := mergePassFuel_pres P hP d rs.length rs hrs
    by_cases hb : (mergePass d rs).2 = true
    · rw [if_pos hb]
      exact ih (mergePass d rs).1 hpass
    · rw [if_neg hb]
      exact hpass

/-- `mergeNearbyRegions` preserves any property closed under region
union. -/
theorem mergeNearbyRegions_pres (P : Region → Prop)
    (hP : ∀ a b, P a → P b → P (mergeTwoRegions a b)) (d : ℚ)
    (rs : List Region) (hrs : ∀ r ∈ rs, P r) :
    ∀ r ∈ mergeNearbyRegions rs d, P r := by
  rw [mergeNearbyRegions]
  by_cases hlen : rs.length < 2
  · rw [if_pos hlen]; exact hrs
  · rw [if_neg hlen]
    exact mergeLoopFuel_pres P hP d rs.length rs hrs

/-- The three-stage region filter only selects from its input. -/
theorem regionFilter_mem (p : AnalysisParams) (rs : List Region) (r : Region)
    (hr : r ∈ regionFilter p rs) : r ∈ rs := by
  rw [regionFilter] at hr
  exact List.mem_of_mem_filter (List.mem_of_mem_filter (List.mem_of_mem_filter hr))

/-- The oversize-region filter only selects from its input. -/
theorem filterLargeRegions_mem (p : AnalysisParams) (w h : ℕ)
    (rs : List Region) (r : Region) (hr : r ∈ filterLargeRegions p w h rs) :
    r ∈ rs :=
  List.mem_of_mem_filter hr

/-- An in-bounds region yields a circle with in-grid center and (for a
nonnegative multiplier) nonnegative radius. -/
theorem regionToCircle_bounds (p : AnalysisParams) (w h : ℕ) (r : Region)
    (hr : RegionInBounds w h r) :
    0 ≤ (regionToCircle p r).x ∧ (regionToCircle p r).x ≤ (w : ℚ) - 1 ∧
      0 ≤ (regionToCircle p r).y ∧ (regionToCircle p r).y ≤ (h : ℚ) - 1 ∧
      (0 ≤ p.circleRadiusMultiplier → 0 ≤ (regionToCircle p r).radius) := by
  obtain ⟨a1, a2, a3, a4, a5, a6⟩ := hr
  rw [regionToCircle]
  refine ⟨?_, ?_, ?_, ?_, ?_⟩
  · show (0 : ℚ) ≤ (r.minX + r.maxX) / 2
    linarith
  · show (r.minX + r.maxX) / 2 ≤ (w : ℚ) - 1
    linarith
  · show (0 : ℚ) ≤ (r.minY + r.maxY) / 2
    linarith
  · show (r.minY + r.maxY) / 2 ≤ (h : ℚ) - 1
    linarith
  · intro hmult
    show (0 : ℚ) ≤ max ((r.maxX - r.minX) / 2) ((r.maxY - r.minY) / 2) *
      p.circleRadiusMultiplier
    have hrx : (0 : ℚ) ≤ (r.maxX - r.minX) / 2 := by linarith
    exact mul_nonneg (le_trans hrx (le_max_left _ _)) hmult

/-- Every candidate circle of the pipeline has an in-grid center and,
for a nonnegative multiplier, a nonnegative radius. -/
theorem pipelineCircles_bounds (o m : Image) (p : AnalysisParams) :
    ∀ c ∈ pipelineCircles o m p,
      0 ≤ c.x ∧ c.x ≤ (o.width : ℚ) - 1 ∧ 0 ≤ c.y ∧ c.y ≤ (o.height : ℚ) - 1 ∧
        (0 ≤ p.circleRadiusMultiplier → 0 ≤ c.radius) := by
  intro c hc
  rw [pipelineCircles] at hc
  simp only [List.mem_map] at hc
  obtain ⟨r, hr, rfl⟩ := hc
  have hrb : RegionInBounds o.width o.height r := by
    have h1 := filterLargeRegions_mem p o.width o.height _ r hr
    have h2 := mergeNearbyRegions_pres (RegionInBounds o.width o.height)
      (mergeTwoRegions_inBounds o.width o.height) p.mergeDistance _
      (fun x hx => findConnectedComponents_inBounds _ o.width o.height x
        (regionFilter_mem p _ x hx)) r h1
    exact h2
  exact regionToCircle_bounds p o.width o.height r hrb

/-- Case analysis on a successful `findDifferences` run: the dimensions
were positive and the output is either the zero-count early exit or the
numbered kept circles. -/
theorem findDifferences_ok_cases (o m : Image) (p : AnalysisParams)
    (ds : List Difference) (hok : findDifferences o m p = .ok ds) :
    0 < o.width ∧ 0 < o.height ∧
      (ds = [] ∨ ds = numberCircles o.width o.height 0
        (filterOverlappingCircles (pipelineCircles o m p))) := by
  rw [findDifferences] at hok
  by_cases h1 : o.width = 0 ∨ o.height = 0
  · rw [if_pos h1] at hok
    exact Except.noConfusion hok
  · rw [if_neg h1] at hok
    push_neg at h1
    refine ⟨Nat.pos_of_ne_zero h1.1, Nat.pos_of_ne_zero h1.2, ?_⟩
    by_cases h2 : o.width ≠ m.width ∨ o.height ≠ m.height
    · rw [if_pos h2] at hok
      exact Except.noConfusion hok
    · rw [if_neg h2] at hok
      by_cases h3 : differencePixelCount o m p.colorThreshold = 0
      · rw [if_pos h3] at hok
        exact Or.inl (Except.ok.inj hok).symm
      · rw [if_neg h3] at hok
        exact Or.inr (Except.ok.inj hok).symm

/-- Denormalizing (multiplying back by the dimension) recovers the
pixel-space value exactly. -/
theorem div_mul_cancel_cast (a : ℚ) (n : ℕ) (hn : 0 < n) :
    ((a / (n : ℚ) : ℚ) : ℝ) * ((n : ℕ) : ℝ) = (a : ℝ) := by
  have hne : ((n : ℕ) : ℝ) ≠ 0 := Nat.cast_ne_zero.mpr hn.ne'
  push_cast
  field_simp

/-! ## C9 (amended): normalized output ranges -/

/-- C9 (amended): in every successful result with a nonnegative
`circleRadiusMultiplier`, every Difference has `0 ≤ x ≤ 1`,
`0 ≤ y ≤ 1` and `radius ≥ 0` (a single-pixel region yields radius
exactly 0, so strict positivity does not hold). -/
theorem differences_normalized (o m : Image) (p : AnalysisParams)
    (ds : List Difference) (hok : findDifferences o m p = .ok ds)
    (hmult : 0 ≤ p.circleRadiusMultiplier) :
    ∀ d ∈ ds, 0 ≤ d.x ∧ d.x ≤ 1 ∧ 0 ≤ d.y ∧ d.y ≤ 1 ∧ 0 ≤ d.radius := by
  obtain ⟨hw, hh, hcases⟩ := findDifferences_ok_cases o m p ds hok
  rcases hcases with rfl | rfl
  · intro d hd
    exact absurd hd (List.not_mem_nil d)
  · intro d hd
    obtain ⟨j, c, hc, rfl⟩ := numberCircles_mem _ _ _ _ d hd
    obtain ⟨hx0, hx1, hy0, hy1, hrad⟩ :=
      pipelineCircles_bounds o m p c (filterOverlappingCircles_mem _ c hc)
    have hwq : (0 : ℚ) < (o.width : ℚ) := by exact_mod_cast hw
    have hhq : (0 : ℚ) < (o.height : ℚ) := by exact_mod_cast hh
    have hmin : (0 : ℚ) < ((min o.width o.height : ℕ) : ℚ) := by
      exact_mod_cast lt_min hw hh
    simp only [toDifference]
    refine ⟨div_nonneg hx0 hwq.le, ?_, div_nonneg hy0 hhq.le, ?_,
      div_nonneg (hrad hmult) hmin.le⟩
    · rw [div_le_one hwq]
      linarith
    · rw [div_le_one hhq]
      linarith

/-! ## C1: the non-overlap invariant -/

/-- C1: in every successful result, any two distinct Differences,
denormalized back to pixel space (centers times width/height, radii
times `min(width, height)`), are separated by at least the sum of their
radii. -/
theorem nonoverlap_invariant (o m : Image) (p : AnalysisParams)
    (ds : List Difference) (hok : findDifferences o m p = .ok ds) :
    ds.Pairwise (fun d1 d2 =>
      (d1.radius : ℝ) * ((min o.width o.height : ℕ) : ℝ) +
          (d2.radius : ℝ) * ((min o.width o.height : ℕ) : ℝ) ≤
        Real.sqrt (((d1.x : ℝ) * (o.width : ℝ) - (d2.x : ℝ) * (o.width : ℝ)) ^ 2 +
          ((d1.y : ℝ) * (o.height : ℝ) - (d2.y : ℝ) * (o.height : ℝ)) ^ 2)) := by
  obtain ⟨hw, hh, hcases⟩ := findDifferences_ok_cases o m p ds hok
  rcases hcases with rfl | rfl
  · exact List.Pairwise.nil
  · refine numberCircles_pairwise o.width o.height ?_ _ 0
      (filterOverlappingCircles_pairwise (pipelineCircles o m p))
    intro i j a b hQ
    simp only [toDifference]
    rw [div_mul_cancel_cast a.x o.width hw, div_mul_cancel_cast b.x o.width hw,
      div_mul_cancel_cast a.y o.height hh, div_mul_cancel_cast b.y o.height hh,
      div_mul_cancel_cast a.radius (min o.width o.height) (lt_min hw hh),
      div_mul_cancel_cast b.radius (min o.width o.height) (lt_min hw hh)]
    simp only [doCirclesOverlap] at hQ
    have key := sqrtLtQ_false_le _ _ hQ
    have harg : (((b.x - a.x) * (b.x - a.x) + (b.y - a.y) * (b.y - a.y) : ℚ) : ℝ) =
        ((a.x : ℝ) - (b.x : ℝ)) ^ 2 + ((a.y : ℝ) - (b.y : ℝ)) ^ 2 := by
      push_cast
      ring
    rw [harg] at key
    have hlhs : ((b.radius + a.radius : ℚ) : ℝ) = (b.radius : ℝ) + (a.radius : ℝ) := by
      push_cast
      ring
    rw [hlhs] at key
    linarith [key]

/-! ## C3: output order, ids, and normalization -/

/-- C3: the emitted sequence is sorted by descending normalized radius,
ids are assigned consecutively from 0 in that order, and each entry is a
kept circle with `x`, `y`, `radius` normalized by width, height and
`min(width, height)` respectively. -/
theorem output_sorted_ids_normalized (o m : Image) (p : AnalysisParams)
    (ds : List Difference) (hok : findDifferences o m p = .ok ds) :
    (∀ i (hi : i < ds.length), (ds.get ⟨i, hi⟩).id = i) ∧
      ds.Pairwise (fun d1 d2 => d2.radius ≤ d1.radius) ∧
      ∃ cs : List Circle,
        (cs = filterOverlappingCircles (pipelineCircles o m p) ∨ cs = []) ∧
        cs.Pairwise (fun a b => b.radius ≤ a.radius) ∧
        ds.length = cs.length ∧
        ∀ i (hi : i < ds.length) (hc : i < cs.length),
          (ds.get ⟨i, hi⟩).x = (cs.get ⟨i, hc⟩).x / (o.width : ℚ) ∧
            (ds.get ⟨i, hi⟩).y = (cs.get ⟨i, hc⟩).y / (o.height : ℚ) ∧
            (ds.get ⟨i, hi⟩).radius =
              (cs.get ⟨i, hc⟩).radius / ((min o.width o.height : ℕ) : ℚ) := by
  obtain ⟨hw, hh, hcases⟩ := findDifferences_ok_cases o m p ds hok
  have hmin : (0 : ℚ) < ((min o.width o.height : ℕ) : ℚ) := by
    exact_mod_cast lt_min hw hh
  rcases hcases with rfl | rfl
  · refine ⟨fun i hi => absurd hi (by simp), List.Pairwise.nil,
      [], Or.inr rfl, List.Pairwise.nil, rfl, fun i hi => absurd hi (by simp)⟩
  · set kept := filterOverlappingCircles (pipelineCircles o m p) with hkept
    refine ⟨?_, ?_, kept, Or.inl rfl, filterOverlappingCircles_sorted _, ?_, ?_⟩
    · intro i hi
      have hc : i < kept.length := by
        rw [← numberCircles_length o.width o.height kept 0]
        exact hi
      rw [numberCircles_get o.width o.height kept 0 i hc hi]
      simp [toDifference]
    · refine numberCircles_pairwise o.width o.height ?_ _ 0
        (filterOverlappingCircles_sorted (pipelineCircles o m p))
      intro i j a b hQ
      simp only [toDifference]
      rw [div_le_div_iff_of_pos_right hmin]
      exact hQ
    · exact numberCircles_length o.width o.height kept 0
    · intro i hi hc
      rw [numberCircles_get o.width o.height kept 0 i hc hi]
      simp [toDifference]

/-! ## Concrete evaluations of the pipeline

Staged evaluations of `findDifferences` on the two small test inputs,
used by the witnesses and the C9 counterexample. -/

theorem oW_width : oW.width = 3 := rfl

theorem oW_height : oW.height = 1 := rfl

theorem mW_width : mW.width = 3 := rfl

theorem mW_height : mW.height = 1 := rfl

theorem pW_ct : pW.colorThreshold = 40 := rfl

theorem pW_md : pW.mergeDistance = 1 := rfl

/-- On `oW` vs `mW` exactly pixels 0 and 2 differ. -/
theorem pixW_eval (j : ℕ) :
    pixelDifferent oW mW 40 j = decide (j = 0 ∨ j = 2) := by
  by_cases h0 : j = 0
  · subst h0
    norm_num [pixelDifferent, sqrtGtQ, oW, mW]
  · by_cases h2 : j = 2
    · subst h2
      norm_num [pixelDifferent, sqrtGtQ, oW, mW]
    · have hne : 4 * j ≠ 0 ∧ 4 * j ≠ 8 ∧ 4 * j + 1 ≠ 0 ∧ 4 * j + 1 ≠ 8 ∧
          4 * j + 2 ≠ 0 ∧ 4 * j + 2 ≠ 8 := by omega
      simp [pixelDifferent, sqrtGtQ, oW, mW, hne.1, hne.2.1, hne.2.2.1,
        hne.2.2.2.1, hne.2.2.2.2.1, hne.2.2.2.2.2, h0, h2]

theorem countW_eval : differencePixelCount oW mW 40 = 2 := by
  simp [differencePixelCount, oW_width, oW_height, List.range_succ, pixW_eval]

theorem regionsW_eval :
    findConnectedComponents
        (fun x y => pixelDifferent oW mW 40 (y * (3 : ℤ) + x).toNat) 3 1 =
      [⟨0, 0, 0, 0, 1⟩, ⟨2, 2, 0, 0, 1⟩] := by
  simp [findConnectedComponents, rasterCells, fccStep, floodFill, floodFillLoop,
    pixW_eval, List.range_succ]

theorem pipeW_eval : pipelineCircles oW mW pW = [⟨0, 0, 0⟩, ⟨2, 0, 0⟩] := by
  rw [pipelineCircles]
  simp only [oW_width, oW_height, pW_ct, pW_md, Nat.cast_ofNat, Nat.cast_one,
    regionsW_eval]
  norm_num [regionFilter, sizeKeep, aspectKeep, densityKeep, pW,
    mergeNearbyRegions, mergePass, mergePassFuel, mergeLoopFuel, mergeInto,
    shouldMerge, sqrtLtQ, filterLargeRegions, regionToCircle]

/-- The engine finds two radius-zero differences at normalized centers
`(0, 0)` and `(2/3, 0)` on the 3×1 pair. -/
theorem fdW_eval : findDifferences oW mW pW =
    .ok [⟨0, 0, 0, 0, ""⟩, ⟨1, 2 / 3, 0, 0, ""⟩] := by
  rw [findDifferences]
  simp only [oW_width, oW_height, mW_width, mW_height, pW_ct, countW_eval,
    pipeW_eval]
  norm_num [filterOverlappingCircles, sortCircles, addNonOverlapping,
    doCirclesOverlap, sqrtLtQ, numberCircles, toDifference, circleGE]

theorem oU_width : oU.width = 1 := rfl

theorem oU_height : oU.height = 1 := rfl

theorem mU_width : mU.width = 1 := rfl

theorem mU_height : mU.height = 1 := rfl

theorem pU_ct : pU.colorThreshold = 0 := rfl

/-- On `oU` vs `mU` the single pixel differs. -/
theorem pixU_eval (j : ℕ) : pixelDifferent oU mU 0 j = decide (j = 0) := by
  by_cases h0 : j = 0
  · subst h0
    norm_num [pixelDifferent, sqrtGtQ, oU, mU]
  · have hne : 4 * j ≠ 0 ∧ 4 * j + 1 ≠ 0 ∧ 4 * j + 2 ≠ 0 := by omega
    simp [pixelDifferent, sqrtGtQ, oU, mU, hne.1, hne.2.1, hne.2.2, h0]

theorem countU_eval : differencePixelCount oU mU 0 = 1 := by
  simp [differencePixelCount, oU_width, oU_height, List.range_succ, pixU_eval]

theorem regionsU_eval :
    findConnectedComponents
        (fun x y => pixelDifferent oU mU 0 (y * (1 : ℤ) + x).toNat) 1 1 =
      [⟨0, 0, 0, 0, 1⟩] := by
  simp [findConnectedComponents, rasterCells, fccStep, floodFill, floodFillLoop,
    pixU_eval, List.range_succ]

theorem pipeU_eval : pipelineCircles oU mU pU = [⟨0, 0, 0⟩] := by
  rw [pipelineCircles]
  simp only [oU_width, oU_height, pU_ct, Nat.cast_one, regionsU_eval]
  norm_num [regionFilter, sizeKeep, aspectKeep, densityKeep, pU,
    mergeNearbyRegions, mergePass, mergePassFuel, mergeLoopFuel, mergeInto,
    shouldMerge, sqrtLtQ, filterLargeRegions, regionToCircle]

/-- The single-pixel region of the 1×1 pair becomes one difference of
radius exactly 0. -/
theorem fdU_eval : findDifferences oU mU pU = .ok [dU] := by
  rw [findDifferences]
  simp only [oU_width, oU_height, mU_width, mU_height, pU_ct, countU_eval,
    pipeU_eval]
  norm_num [filterOverlappingCircles, sortCircles, addNonOverlapping,
    doCirclesOverlap, sqrtLtQ, numberCircles, toDifference, circleGE, dU]

/-- C9 counterexample: the 1×1 pair yields a successful result whose
single Difference has radius exactly 0, refuting `radius > 0`. -/
theorem difference_radius_zero_cex :
    findDifferences oU mU pU = .ok [dU] ∧ ¬ 0 < dU.radius :=
  ⟨fdU_eval, by norm_num [dU]⟩

/-- C9 witness: the amended bounds at the concrete 1×1 run's single
difference. -/
theorem differences_normalized_witness :
    0 ≤ dU.x ∧ dU.x ≤ 1 ∧ 0 ≤ dU.y ∧ dU.y ≤ 1 ∧ 0 ≤ dU.radius :=
  differences_normalized oU mU pU [dU] fdU_eval (by norm_num [pU]) dU
    (List.mem_singleton.mpr rfl)

/-- C1 witness: the non-overlap invariant at the concrete 3×1 run with
two kept circles. -/
theorem nonoverlap_invariant_witness :
    ([(⟨0, 0, 0, 0, ""⟩ : Difference), ⟨1, 2 / 3, 0, 0, ""⟩]).Pairwise
      (fun d1 d2 =>
        (d1.radius : ℝ) * ((min oW.width oW.height : ℕ) : ℝ) +
            (d2.radius : ℝ) * ((min oW.width oW.height : ℕ) : ℝ) ≤
          Real.sqrt (((d1.x : ℝ) * (oW.width : ℝ) - (d2.x : ℝ) * (oW.width : ℝ)) ^ 2 +
            ((d1.y : ℝ) * (oW.height : ℝ) - (d2.y : ℝ) * (oW.height : ℝ)) ^ 2)) :=
  nonoverlap_invariant oW mW pW _ fdW_eval

/-- C3 witness: ordering, ids and normalization at the concrete 3×1
run. -/
theorem output_sorted_ids_normalized_witness :
    (∀ i (hi : i < ([(⟨0, 0, 0, 0, ""⟩ : Difference), ⟨1, 2 / 3, 0, 0, ""⟩]).length),
        (([(⟨0, 0, 0, 0, ""⟩ : Difference), ⟨1, 2 / 3, 0, 0, ""⟩]).get ⟨i, hi⟩).id = i) ∧
      ([(⟨0, 0, 0, 0, ""⟩ : Difference), ⟨1, 2 / 3, 0, 0, ""⟩]).Pairwise
        (fun d1 d2 => d2.radius ≤ d1.radius) ∧
      ∃ cs : List Circle,
        (cs = filterOverlappingCircles (pipelineCircles oW mW pW) ∨ cs = []) ∧
        cs.Pairwise (fun a b => b.radius ≤ a.radius) ∧
        ([(⟨0, 0, 0, 0, ""⟩ : Difference), ⟨1, 2 / 3, 0, 0, ""⟩]).length = cs.length ∧
        ∀ i (hi : i < ([(⟨0, 0, 0, 0, ""⟩ : Difference), ⟨1, 2 / 3, 0, 0, ""⟩]).length)
          (hc : i < cs.length),
          (([(⟨0, 0, 0, 0, ""⟩ : Difference), ⟨1, 2 / 3, 0, 0, ""⟩]).get ⟨i, hi⟩).x =
              (cs.get ⟨i, hc⟩).x / (oW.width : ℚ) ∧
            (([(⟨0, 0, 0, 0, ""⟩ : Difference), ⟨1, 2 / 3, 0, 0, ""⟩]).get ⟨i, hi⟩).y =
              (cs.get ⟨i, hc⟩).y / (oW.height : ℚ) ∧
            (([(⟨0, 0, 0, 0, ""⟩ : Difference), ⟨1, 2 / 3, 0, 0, ""⟩]).get ⟨i, hi⟩).radius =
              (cs.get ⟨i, hc⟩).radius / ((min oW.width oW.height : ℕ) : ℚ) :=
  output_sorted_ids_normalized oW mW pW _ fdW_eval

end PuzzleEngine
